import Mathlib

/-!
Verification of `go/vt/vtgate/engine/plan_description.go` (Vitess).

The file shallowly embeds the Go source: `PrimitiveDescription` and its
custom JSON serializer `MarshalJSON`, the stats helpers `average` and
`median`, the extension-map emitter `addMap`, the tree builder
`PrimitiveToPlanDescription`, and the graphviz exporter `addToGraph`.

Modelling conventions:
* Go `float64` results of `average`/`median` are modelled as `ℚ`; the
  integer sums, halving and divisions the code performs are exact on the
  inputs the claims mention, so the rational model agrees with the float
  one there.  Go `int` is modelled as `ℤ` (overflow out of scope).
* The serializer is modelled at the JSON-field level: each
  `marshalAdd(prepend, buf, name, v)` call becomes appending the pair
  `(name, v)` to the emitted field list, in program order.  The comma
  book-keeping (`prepend`) only affects textual well-formedness, which is
  not at issue in any claim.
* `encoding/json` encoding of the value domain used here (strings, ints,
  bools, string slices, the Keyspace struct) never fails, so the
  `return nil, err` branches of the Go code are unreachable; they are kept
  as the `MarshalFail.encodingError` outcome, which no definition
  constructs.  The out-of-range slice `s[11:]` panic is the
  `MarshalFail.panicked` outcome.
* Go maps (`map[string]any`) are modelled as association lists iterated
  in list order; the Go code either sorts the keys before emission
  (`addMap`) or is order-insensitive in what the claims state.
* `sort.Ints` / `sort.Strings` produce the unique sorted permutation of
  their input, modelled by `List.insertionSort` — under `≤` on `ℤ` for
  ints, and under `strLe`, an explicit character-wise lexicographic
  comparison, for strings.
-/

/-- `vindexes.Keyspace` (external to this file): only its serializable
form matters here. -/
structure Keyspace where
  name : String
  sharded : Bool
deriving DecidableEq, Repr

/-- `key.Destination` (external interface): the model keeps exactly what
the serializer uses, the canonical textual form returned by `String()`. -/
structure Destination where
  str : String
deriving DecidableEq, Repr

/-- `topodatapb.TabletType` with its `UNKNOWN` zero value. -/
inductive TabletType
  | UNKNOWN | PRIMARY | REPLICA | RDONLY | BATCH | SPARE
  | EXPERIMENTAL | BACKUP | RESTORE | DRAINED
deriving DecidableEq, Repr

/-- `TabletType.String()`: the canonical name of the enum value. -/
def TabletType.name : TabletType → String
  | .UNKNOWN => "UNKNOWN"
  | .PRIMARY => "PRIMARY"
  | .REPLICA => "REPLICA"
  | .RDONLY => "RDONLY"
  | .BATCH => "BATCH"
  | .SPARE => "SPARE"
  | .EXPERIMENTAL => "EXPERIMENTAL"
  | .BACKUP => "BACKUP"
  | .RESTORE => "RESTORE"
  | .DRAINED => "DRAINED"

/-- The dynamic (`any`) values stored in the `Other` extension map and in
per-child metadata: the value kinds this code compares against and
type-switches on. -/
inductive GoValue
  | vNull
  | vStr (s : String)
  | vInt (n : Int)
  | vBool (b : Bool)
  | vStrList (ss : List String)
deriving DecidableEq, Repr

/-- `const inputName = "InputName"` (plan_description.go line 32). -/
def inputName : String := "InputName"

/-- `PrimitiveDescription` (the spec's PlanDescription).  An inductive
with one constructor because the type is recursive through `Inputs`.
`Stats` is `RowsReceived = []int`. -/
inductive PrimitiveDescription
  | mk (operatorType : String) (variant : String)
       (keyspace : Option Keyspace)
       (targetDestination : Option Destination)
       (targetTabletType : TabletType)
       (other : List (String × GoValue))
       (inputName : String)
       (inputs : List PrimitiveDescription)
       (stats : List Int)

namespace PrimitiveDescription

def operatorType : PrimitiveDescription → String
  | .mk op _ _ _ _ _ _ _ _ => op

def variant : PrimitiveDescription → String
  | .mk _ v _ _ _ _ _ _ _ => v

def keyspace : PrimitiveDescription → Option Keyspace
  | .mk _ _ k _ _ _ _ _ _ => k

def targetDestination : PrimitiveDescription → Option Destination
  | .mk _ _ _ d _ _ _ _ _ => d

def targetTabletType : PrimitiveDescription → TabletType
  | .mk _ _ _ _ t _ _ _ _ => t

def other : PrimitiveDescription → List (String × GoValue)
  | .mk _ _ _ _ _ o _ _ _ => o

def inputName : PrimitiveDescription → String
  | .mk _ _ _ _ _ _ n _ _ => n

def inputs : PrimitiveDescription → List PrimitiveDescription
  | .mk _ _ _ _ _ _ _ i _ => i

def stats : PrimitiveDescription → List Int
  | .mk _ _ _ _ _ _ _ _ s => s

def setStats (pd : PrimitiveDescription) (s : List Int) : PrimitiveDescription :=
  match pd with
  | .mk op v k d t o n i _ => .mk op v k d t o n i s

def setInputs (pd : PrimitiveDescription) (i : List PrimitiveDescription) :
    PrimitiveDescription :=
  match pd with
  | .mk op v k d t o n _ s => .mk op v k d t o n i s

def setInputName (pd : PrimitiveDescription) (n : String) : PrimitiveDescription :=
  match pd with
  | .mk op v k d t o _ i s => .mk op v k d t o n i s

def setOther (pd : PrimitiveDescription) (o : List (String × GoValue)) :
    PrimitiveDescription :=
  match pd with
  | .mk op v k d t _ n i s => .mk op v k d t o n i s

end PrimitiveDescription

/-- Model of `sort.Ints`: the ≤-sorted permutation of the input (Go sorts
in place; the callers below thread the value explicitly). -/
def sortInts (nums : List Int) : List Int :=
  nums.insertionSort (· ≤ ·)

/-- `average` (plan_description.go lines 123-129): the `int` sum divided
by the length, the `float64` division modelled as exact division in `ℚ`.
The code only calls it with a non-empty slice (line 95 guards). -/
def average (nums : List Int) : ℚ :=
  ((nums.sum : ℤ) : ℚ) / (nums.length : ℚ)

/-- `median` (plan_description.go lines 131-143): sort a copy ascending;
even length averages the two middle elements, odd length takes the middle
one.  `getD _ 0` stands for Go's indexing, which the `len > 0` caller
guard keeps in range (on `[]` the Go code would panic at index `-1`). -/
def median (nums : List Int) : ℚ :=
  let sortedNums := sortInts nums
  let n := sortedNums.length
  if n % 2 = 0 then
    let mid1 := sortedNums.getD (n / 2 - 1) 0
    let mid2 := sortedNums.getD (n / 2) 0
    ((mid1 + mid2 : ℤ) : ℚ) / 2
  else
    ((sortedNums.getD (n / 2) 0 : ℤ) : ℚ)

example : median [3, 1, 2] = 2 := by
  norm_num [median, sortInts, List.insertionSort, List.orderedInsert]

example : median [3, 1, 2, 4] = 5 / 2 := by
  norm_num [median, sortInts, List.insertionSort, List.orderedInsert]

example : average [1, 2, 3] = 2 := by
  norm_num [average]

/-- JSON values, as produced by the field-level model of the serializer.
Integers (`json` encoding of Go `int`) are kept apart from the rationals
that model `float64` output. -/
inductive JSONValue
  | str (s : String)
  | int (n : Int)
  | num (q : ℚ)
  | bool (b : Bool)
  | null
  | arr (vs : List JSONValue)
  | obj (fields : List (String × JSONValue))

/-- `encoding/json` on a `vindexes.Keyspace` value. -/
def encodeKeyspace (k : Keyspace) : JSONValue :=
  .obj [("Name", .str k.name), ("Sharded", .bool k.sharded)]

/-- `encoding/json` on the dynamic values of the extension map. -/
def encodeGoValue : GoValue → JSONValue
  | .vNull => .null
  | .vStr s => .str s
  | .vInt n => .int n
  | .vBool b => .bool b
  | .vStrList ss => .arr (ss.map .str)

/-- The skip test of `addMap` (line 196):
`v == "" || v == nil || v == 0 || v == false`.  A Go interface comparison
also compares the dynamic type, so the untyped constants `0` and `false`
match exactly `int(0)` and `bool(false)`. -/
def skipValue (v : GoValue) : Bool :=
  v == .vStr "" || v == .vNull || v == .vInt 0 || v == .vBool false

/-- Go map read `m[k]` on the association-list model: the first binding
of `k` (maps have no duplicate keys). -/
def mapLookup (m : List (String × GoValue)) (k : String) : Option GoValue :=
  (m.find? (fun kv => kv.1 = k)).map (fun kv => kv.2)

/-- Byte-wise lexicographic comparison of character lists, as
`sort.Strings` compares Go strings (UTF-8 byte order coincides with code
point order). -/
def charListLe : List Char → List Char → Bool
  | [], _ => true
  | _ :: _, [] => false
  | a :: as, b :: bs =>
    if a.val.toNat < b.val.toNat then true
    else if b.val.toNat < a.val.toNat then false
    else charListLe as bs

/-- The lexicographic order on strings used by `sort.Strings`. -/
def strLe (a b : String) : Prop := charListLe a.data b.data = true

instance : DecidableRel strLe := fun a b =>
  inferInstanceAs (Decidable (charListLe a.data b.data = true))

theorem charListLe_trans : ∀ (as bs cs : List Char),
    charListLe as bs = true → charListLe bs cs = true →
    charListLe as cs = true := by
  intro as
  induction as with
  | nil => intro bs cs h1 h2; rfl
  | cons a as ih =>
    intro bs cs h1 h2
    cases bs with
    | nil => simp [charListLe] at h1
    | cons b bs =>
      cases cs with
      | nil => simp [charListLe] at h2
      | cons c cs =>
        simp only [charListLe] at h1 h2 ⊢
        by_cases hab : a.val.toNat < b.val.toNat
        · by_cases hbc : b.val.toNat < c.val.toNat
          · rw [if_pos (Nat.lt_trans hab hbc)]
          · rw [if_neg hbc] at h2
            by_cases hcb : c.val.toNat < b.val.toNat
            · rw [if_pos hcb] at h2
              exact absurd h2 (by simp)
            · have hbceq : b.val.toNat = c.val.toNat :=
                Nat.le_antisymm (Nat.not_lt.mp hcb) (Nat.not_lt.mp hbc)
              rw [if_pos (hbceq ▸ hab)]
        · rw [if_neg hab] at h1
          by_cases hba : b.val.toNat < a.val.toNat
          · rw [if_pos hba] at h1
            exact absurd h1 (by simp)
          · rw [if_neg hba] at h1
            have habeq : a.val.toNat = b.val.toNat :=
              Nat.le_antisymm (Nat.not_lt.mp hba) (Nat.not_lt.mp hab)
            by_cases hbc : b.val.toNat < c.val.toNat
            · rw [if_pos (habeq ▸ hbc)]
            · rw [if_neg hbc] at h2
              by_cases hcb : c.val.toNat < b.val.toNat
              · rw [if_pos hcb] at h2
                exact absurd h2 (by simp)
              · rw [if_neg hcb] at h2
                have hac : ¬ a.val.toNat < c.val.toNat := by
                  rw [habeq]
                  exact hbc
                have hca : ¬ c.val.toNat < a.val.toNat := by
                  rw [habeq]
                  exact hcb
                rw [if_neg hac, if_neg hca]
                exact ih bs cs h1 h2

theorem charListLe_total : ∀ (as bs : List Char),
    charListLe as bs = true ∨ charListLe bs as = true := by
  intro as
  induction as with
  | nil => intro bs; left; rfl
  | cons a as ih =>
    intro bs
    cases bs with
    | nil => right; rfl
    | cons b bs =>
      simp only [charListLe]
      rcases Nat.lt_trichotomy a.val.toNat b.val.toNat with h | h | h
      · left
        rw [if_pos h]
      · have hne : ¬ a.val.toNat < b.val.toNat := by omega
        have hne2 : ¬ b.val.toNat < a.val.toNat := by omega
        rcases ih bs with h2 | h2
        · left
          rw [if_neg hne, if_neg hne2]
          exact h2
        · right
          rw [if_neg hne2, if_neg hne]
          exact h2
      · right
        rw [if_pos h]

instance : IsTrans String strLe :=
  ⟨fun a b c => charListLe_trans a.data b.data c.data⟩

instance : IsTotal String strLe :=
  ⟨fun a b => charListLe_total a.data b.data⟩

/-- Model of `sort.Strings`: the lexicographically sorted permutation. -/
def sortStrings (ks : List String) : List String :=
  ks.insertionSort strLe

/-- `addMap` (lines 193-209) at the field level: collect the keys whose
value survives the skip test, sort them, and emit each key with the
map's value for it. -/
def addMap (input : List (String × GoValue)) : List (String × JSONValue) :=
  let mk := (input.filter (fun kv => !skipValue kv.2)).map (fun kv => kv.1)
  (sortStrings mk).filterMap
    (fun k => (mapLookup input k).map (fun v => (k, encodeGoValue v)))

/-- The two abnormal outcomes of `MarshalJSON`: the `return nil, err`
path (never reachable on this value domain, see file header) and a
runtime panic (the `s[11:]` slice with `len(s) < 11`). -/
inductive MarshalFail
  | encodingError
  | panicked
deriving DecidableEq, Repr

/-- Lines 82-89: the `TargetDestination` field.  `s[11:]` demands
`11 ≤ len(s)` and otherwise panics (destination names are ASCII, so byte
and character counts agree). -/
def destSlot : Option Destination → Except MarshalFail (List (String × JSONValue))
  | none => .ok []
  | some d =>
    if 11 ≤ d.str.length then
      .ok [("TargetDestination", .str (d.str.drop 11))]
    else
      .error .panicked

mutual

/-- `MarshalJSON` (lines 57-121) at the field level: the pairs written to
the buffer, in program order.  Children are serialized recursively inside
the `Inputs` field (Go: `json` encoding of `[]PrimitiveDescription` calls
each child's `MarshalJSON`). -/
def marshalJSON : PrimitiveDescription → Except MarshalFail (List (String × JSONValue))
  | .mk op var ks dest tt other iname inputs stats =>
    let inF : List (String × JSONValue) :=
      if iname = "" then [] else [("InputName", .str iname)]
    let varF : List (String × JSONValue) :=
      if var = "" then [] else [("Variant", .str var)]
    let ksF : List (String × JSONValue) :=
      match ks with
      | none => []
      | some k => [("Keyspace", encodeKeyspace k)]
    match destSlot dest with
    | .error e => .error e
    | .ok destF =>
      let ttF : List (String × JSONValue) :=
        if tt = TabletType.UNKNOWN then [] else [("TargetTabletType", .str tt.name)]
      let statsF : List (String × JSONValue) :=
        if stats.isEmpty then []
        else
          [("NoOfCalls", .int (stats.length : Int)),
           ("AvgNumberOfRows", .num (average stats)),
           ("MedianNumberOfRows", .num (median stats))]
      let head := inF ++ [("OperatorType", JSONValue.str op)] ++ varF ++ ksF
        ++ destF ++ ttF ++ statsF ++ addMap other
      if inputs.isEmpty then
        .ok head
      else
        match marshalInputs inputs with
        | .error e => .error e
        | .ok vs => .ok (head ++ [("Inputs", .arr vs)])

/-- Serialization of the `Inputs` slice: each child in order; the first
failing child aborts the whole call. -/
def marshalInputs : List PrimitiveDescription → Except MarshalFail (List JSONValue)
  | [] => .ok []
  | pd :: rest =>
    match marshalJSON pd with
    | .error e => .error e
    | .ok fs =>
      match marshalInputs rest with
      | .error e => .error e
      | .ok vs => .ok (.obj fs :: vs)

end

/-- A `Primitive` (external interface), reduced to what
`PrimitiveToPlanDescription` consumes: `description()`, and `Inputs()`
returning the ordered children plus the optional per-child metadata
slice (`nil` disables augmentation for all children of the node). -/
inductive Primitive
  | mk (descr : PrimitiveDescription)
       (children : List Primitive)
       (infos : Option (List (List (String × GoValue))))

/-- Go map write `m[k] = v`: overwrite the binding of `k` if present,
otherwise add one. -/
def goInsert (m : List (String × GoValue)) (k : String) (v : GoValue) :
    List (String × GoValue) :=
  if m.any (fun kv => kv.1 = k) then
    m.map (fun kv => if kv.1 = k then (k, v) else kv)
  else
    m ++ [(k, v)]

/-- The inner loop of `PrimitiveToPlanDescription` (lines 232-241) over
one child's metadata map: the reserved `InputName` key sets the child's
`InputName` (after a `v.(string)` assertion, which panics — `none` — on a
non-string value) and is excluded from the extension map; every other key
is written into the child's extension map, overwriting. -/
def applyInfo : PrimitiveDescription → List (String × GoValue) →
    Option PrimitiveDescription
  | pd, [] => some pd
  | pd, (k, v) :: rest =>
    if k = inputName then
      match v with
      | .vStr s => applyInfo (pd.setInputName s) rest
      | _ => none
    else
      applyInfo (pd.setOther (goInsert pd.other k v)) rest

mutual

/-- `PrimitiveToPlanDescription` (lines 222-251).  `stats` is the
optional stats mapping, modelled as a total function (a Go map read of a
missing key yields the zero value `nil`, i.e. the empty slice, so the
default is folded into the function).  `none` is a propagated panic. -/
def primitiveToPlanDescription :
    Primitive → Option (Primitive → List Int) → Option PrimitiveDescription
  | .mk descr children infos, stats =>
    let this0 :=
      match stats with
      | some f => descr.setStats (f (.mk descr children infos))
      | none => descr
    match buildChildren children infos stats with
    | none => none
    | some kids =>
      let this1 := this0.setInputs (this0.inputs ++ kids)
      if children.isEmpty then some (this1.setInputs []) else some this1

/-- The `for idx, input := range inputs` loop: recursively build each
child and, when the metadata slice is present, apply the entry at the
child's index (`infos[idx]` panics — `none` — when the slice is too
short). -/
def buildChildren :
    List Primitive → Option (List (List (String × GoValue))) →
    Option (Primitive → List Int) → Option (List PrimitiveDescription)
  | [], _, _ => some []
  | c :: cs, none, stats =>
    match primitiveToPlanDescription c stats with
    | none => none
    | some pd =>
      match buildChildren cs none stats with
      | none => none
      | some rest => some (pd :: rest)
  | _ :: _, some [], _ => none
  | c :: cs, some (info :: is2), stats =>
    match primitiveToPlanDescription c stats with
    | none => none
    | some pd0 =>
      match applyInfo pd0 info with
      | none => none
      | some pd =>
        match buildChildren cs (some is2) stats with
        | none => none
        | some rest => some (pd :: rest)

end

/-!  A small heap of integer arrays, for the frame property of `median`:
Go slices are references, `copy` and `sort.Ints` mutate their target, and
the claim is that the caller's slice is untouched.  References are
indices into the heap; allocation appends. -/

structure Heap where
  arrays : List (List Int)

def Heap.read (h : Heap) (r : Nat) : List Int :=
  h.arrays.getD r []

def Heap.write (h : Heap) (r : Nat) (v : List Int) : Heap :=
  ⟨h.arrays.set r v⟩

def Heap.alloc (h : Heap) (v : List Int) : Heap × Nat :=
  (⟨h.arrays ++ [v]⟩, h.arrays.length)

/-- Go `copy(dst, src)`: overwrite the first `min(len(dst), len(src))`
elements of `dst` with those of `src`. -/
def goCopy (dst src : List Int) : List Int :=
  src.take dst.length ++ dst.drop src.length

/-- The value computation of `median` from an already sorted slice
(lines 136-142). -/
def medianOfSorted (sortedNums : List Int) : ℚ :=
  let n := sortedNums.length
  if n % 2 = 0 then
    let mid1 := sortedNums.getD (n / 2 - 1) 0
    let mid2 := sortedNums.getD (n / 2) 0
    ((mid1 + mid2 : ℤ) : ℚ) / 2
  else
    ((sortedNums.getD (n / 2) 0 : ℤ) : ℚ)

/-- `median` with the heap explicit, statement by statement:
`sortedNums := make([]int, len(nums))` allocates, `copy(sortedNums, nums)`
writes the copy target, `sort.Ints(sortedNums)` sorts the copy in place,
and the result is read off the copy.  `r` is the caller's slice. -/
def medianHeap (h : Heap) (r : Nat) : Heap × ℚ :=
  let nums := h.read r
  let (h1, s) := h.alloc (List.replicate nums.length 0)
  let h2 := h1.write s (goCopy (h1.read s) (h1.read r))
  let h3 := h2.write s (sortInts (h2.read s))
  (h3, medianOfSorted (h3.read s))

/-!  The graphviz objects (`go/tools/graphviz`, external), reduced to
what `addToGraph` produces: nodes carry a label, visible attributes and
tooltips; edges join node ids.  `AddNode` appends a fresh node and the
`*Node` methods mutate it in place, modelled by indexing into the node
list. -/

structure GNode where
  label : String
  attrs : List String
  tooltips : List String
deriving DecidableEq, Repr

structure Graph where
  nodes : List GNode
  edges : List (Nat × Nat)
deriving DecidableEq, Repr

def Graph.addNode (g : Graph) (label : String) : Graph × Nat :=
  (⟨g.nodes ++ [⟨label, [], []⟩], g.edges⟩, g.nodes.length)

def modifyNode (f : GNode → GNode) : Nat → List GNode → List GNode
  | _, [] => []
  | 0, n :: ns => f n :: ns
  | i + 1, n :: ns => n :: modifyNode f i ns

def Graph.addAttr (g : Graph) (id : Nat) (s : String) : Graph :=
  ⟨modifyNode (fun n => { n with attrs := n.attrs ++ [s] }) id g.nodes, g.edges⟩

def Graph.addTooltip (g : Graph) (id : Nat) (s : String) : Graph :=
  ⟨modifyNode (fun n => { n with tooltips := n.tooltips ++ [s] }) id g.nodes,
   g.edges⟩

def Graph.addEdge (g : Graph) (a b : Nat) : Graph :=
  ⟨g.nodes, g.edges ++ [(a, b)]⟩

/-- `fmt.Sprintf("%v", v)` on the modelled dynamic values. -/
def goFormat : GoValue → String
  | .vNull => "<nil>"
  | .vStr s => s
  | .vInt n => toString n
  | .vBool b => if b then "true" else "false"
  | .vStrList ss => "[" ++ String.intercalate " " ss ++ "]"

/-- The `switch k` body of `addToGraph` (lines 159-176) for one extension
entry: `Query` becomes a tooltip, `FieldQuery` is skipped, a `[]string`
value adds the key and then each element as attributes, anything else
adds a single `key:value` attribute. -/
def entryScan (g : Graph) (id : Nat) (k : String) (v : GoValue) : Graph :=
  if k = "Query" then g.addTooltip id (goFormat v)
  else if k = "FieldQuery" then g
  else
    match v with
    | .vStrList ss => ss.foldl (fun g2 s => g2.addAttr id s) (g.addAttr id k)
    | _ => g.addAttr id (k ++ ":" ++ goFormat v)

mutual

/-- `addToGraph` (lines 145-181): children first, then the node (label
`op:variant`, or `op` when the variant is empty), then the extension-map
scan, then the edges to the children.  The Go error return is only ever
`nil` (no step in the body can fail), so the model is total. -/
def addToGraph : PrimitiveDescription → Graph → Graph × Nat
  | .mk op var _ _ _ other _ inputs _, g =>
    let r1 := addInputs inputs g
    let g1 := r1.1
    let childIds := r1.2
    let name := if var = "" then op else op ++ ":" ++ var
    let r2 := g1.addNode name
    let g2 := r2.1
    let this := r2.2
    let g3 := other.foldl (fun gg kv => entryScan gg this kv.1 kv.2) g2
    let g4 := childIds.foldl (fun gg n => gg.addEdge this n) g3
    (g4, this)

/-- The `for _, input := range pd.Inputs` loop of `addToGraph`. -/
def addInputs : List PrimitiveDescription → Graph → Graph × List Nat
  | [], g => (g, [])
  | pd :: rest, g =>
    let r1 := addToGraph pd g
    let r2 := addInputs rest r1.1
    (r2.1, r1.2 :: r2.2)

end

/-- Per-entry visible attributes, as the amended §4.4 scan rule states
them: `Query` and `FieldQuery` contribute none, a string-slice value
contributes the key and then one attribute per element, any other value
one `key:value` attribute. -/
def entryAttrs (k : String) (v : GoValue) : List String :=
  if k = "Query" then []
  else if k = "FieldQuery" then []
  else
    match v with
    | .vStrList ss => k :: ss
    | _ => [k ++ ":" ++ goFormat v]

/-- Per-entry tooltips: exactly the formatted values under `Query`. -/
def entryTooltips (k : String) (v : GoValue) : List String :=
  if k = "Query" then [goFormat v] else []

/-!  ## Theorems -/

/-- `median nums` is `medianOfSorted` of the sorted permutation. -/
theorem median_eq_medianOfSorted (nums : List Int) :
    median nums = medianOfSorted (sortInts nums) := rfl

/-- Any sorted permutation of the input is the one `sortInts` builds. -/
theorem sorted_perm_eq_sortInts (nums l : List Int)
    (hp : l.Perm nums) (hs : l.Sorted (· ≤ ·)) : l = sortInts nums :=
  List.eq_of_perm_of_sorted
    (hp.trans (List.perm_insertionSort (· ≤ ·) nums).symm) hs
    (List.sorted_insertionSort (· ≤ ·) nums)

/-- C5: For every non-empty sample sequence, `median` sorts a copy
ascending and returns the average of the two middle elements at even
count and the exact middle element at odd count (stated against an
arbitrary sorted permutation `l` of the input), `average` returns the sum
divided by the count, and the spec's concrete values hold:
`median [3,1,2] = 2`, `median [3,1,2,4] = 2.5`, `average [1,2,3] = 2`. -/
theorem median_average_values :
    (∀ (nums l : List Int), nums ≠ [] → l.Perm nums → l.Sorted (· ≤ ·) →
      median nums =
        (if l.length % 2 = 0 then
          ((l.getD (l.length / 2 - 1) 0 + l.getD (l.length / 2) 0 : ℤ) : ℚ) / 2
        else
          ((l.getD (l.length / 2) 0 : ℤ) : ℚ)))
    ∧ (∀ nums : List Int, nums ≠ [] →
        average nums = ((nums.sum : ℤ) : ℚ) / (nums.length : ℚ))
    ∧ median [3, 1, 2] = 2
    ∧ median [3, 1, 2, 4] = 5 / 2
    ∧ average [1, 2, 3] = 2 := by
  refine ⟨?_, ?_, ?_, ?_, ?_⟩
  · intro nums l _ hp hs
    rw [sorted_perm_eq_sortInts nums l hp hs]
    rfl
  · intro nums _
    rfl
  · norm_num [median, sortInts, List.insertionSort, List.orderedInsert,
      medianOfSorted]
  · norm_num [median, sortInts, List.insertionSort, List.orderedInsert,
      medianOfSorted]
  · norm_num [average]

/-- Witness for `median_average_values`: the universally quantified part
applied at `[3,1,2]` with sorted permutation `[1,2,3]`. -/
theorem median_average_values_witness :
    median [3, 1, 2] =
      (if ([1, 2, 3] : List Int).length % 2 = 0 then
        ((([1, 2, 3] : List Int).getD (([1, 2, 3] : List Int).length / 2 - 1) 0
          + ([1, 2, 3] : List Int).getD (([1, 2, 3] : List Int).length / 2) 0
          : ℤ) : ℚ) / 2
      else
        ((([1, 2, 3] : List Int).getD (([1, 2, 3] : List Int).length / 2) 0
          : ℤ) : ℚ)) :=
  median_average_values.1 [3, 1, 2] [1, 2, 3] (by decide) (by decide)
    (by decide)

theorem getD_set_ne {α : Type} (l : List α) (i j : Nat) (a d : α)
    (hij : i ≠ j) : (l.set i a).getD j d = l.getD j d := by
  simp [List.getD, List.getElem?_set_ne hij]

theorem getD_set_self {α : Type} (l : List α) (i : Nat) (a d : α)
    (hi : i < l.length) : (l.set i a).getD i d = a := by
  simp [List.getD, List.getElem?_set_self, hi]

theorem getD_append_left {α : Type} (l1 l2 : List α) (r : Nat) (d : α)
    (hr : r < l1.length) : (l1 ++ l2).getD r d = l1.getD r d := by
  simp [List.getD, List.getElem?_append, hr]

theorem getD_append_self {α : Type} (l1 : List α) (x d : α) :
    (l1 ++ [x]).getD l1.length d = x := by
  simp [List.getD]

/-- `copy` into a zero-filled slice of the source's length yields the
source. -/
theorem goCopy_replicate (l : List Int) :
    goCopy (List.replicate l.length 0) l = l := by
  simp [goCopy]

/-- C9: `median` run with the heap explicit leaves the caller's slice
unchanged — it allocates a fresh slice, copies into it, and sorts only
the copy — and still computes the pure `median` of the caller's
sequence. -/
theorem median_frame (h : Heap) (r : Nat) (hr : r < h.arrays.length) :
    (medianHeap h r).1.read r = h.read r ∧
    (medianHeap h r).2 = median (h.read r) := by
  have hne : h.arrays.length ≠ r := (Nat.ne_of_lt hr).symm
  simp only [medianHeap, Heap.alloc, Heap.write, Heap.read]
  have hlen : h.arrays.length <
      (h.arrays ++ [List.replicate (h.arrays.getD r []).length 0]).length := by
    simp
  rw [getD_append_self, getD_append_left _ _ _ _ hr]
  constructor
  · rw [getD_set_ne _ _ _ _ _ hne, getD_set_ne _ _ _ _ _ hne,
      getD_append_left _ _ _ _ hr]
  · rw [getD_set_self _ _ _ _ (by simp),
      getD_set_self _ _ _ _ hlen, goCopy_replicate,
      median_eq_medianOfSorted]

/-- Witness for `median_frame`: a one-slice heap holding `[3,1,2]`. -/
theorem median_frame_witness :
    (medianHeap ⟨[[3, 1, 2]]⟩ 0).1.read 0 = Heap.read ⟨[[3, 1, 2]]⟩ 0 ∧
    (medianHeap ⟨[[3, 1, 2]]⟩ 0).2 = median (Heap.read ⟨[[3, 1, 2]]⟩ 0) :=
  median_frame ⟨[[3, 1, 2]]⟩ 0 (by decide)

/-- The stats block emitted at lines 95-106. -/
def statsFields (stats : List Int) : List (String × JSONValue) :=
  [("NoOfCalls", .int (stats.length : Int)),
   ("AvgNumberOfRows", .num (average stats)),
   ("MedianNumberOfRows", .num (median stats))]

set_option maxHeartbeats 2000000 in
/-- Decomposition of a successful `marshalJSON` run into the nine buffer
slots, in the order the code writes them. -/
theorem marshalJSON_ok_decomp (pd : PrimitiveDescription)
    (fields : List (String × JSONValue))
    (hm : marshalJSON pd = .ok fields) :
    ∃ destF inputsF,
      destSlot pd.targetDestination = .ok destF ∧
      fields =
        (if pd.inputName = "" then []
          else [("InputName", JSONValue.str pd.inputName)])
        ++ [("OperatorType", JSONValue.str pd.operatorType)]
        ++ (if pd.variant = "" then []
          else [("Variant", JSONValue.str pd.variant)])
        ++ (match pd.keyspace with
            | none => []
            | some k => [("Keyspace", encodeKeyspace k)])
        ++ destF
        ++ (if pd.targetTabletType = TabletType.UNKNOWN then []
          else [("TargetTabletType", JSONValue.str pd.targetTabletType.name)])
        ++ (if pd.stats.isEmpty then [] else statsFields pd.stats)
        ++ addMap pd.other
        ++ inputsF ∧
      (pd.inputs = [] → inputsF = []) ∧
      (pd.inputs ≠ [] → ∃ vs, marshalInputs pd.inputs = .ok vs ∧
        inputsF = [("Inputs", JSONValue.arr vs)]) := by
  obtain ⟨op, var, ks, dest, tt, other, iname, inputs, stats⟩ := pd
  simp only [PrimitiveDescription.operatorType, PrimitiveDescription.variant,
    PrimitiveDescription.keyspace, PrimitiveDescription.targetDestination,
    PrimitiveDescription.targetTabletType, PrimitiveDescription.other,
    PrimitiveDescription.inputName, PrimitiveDescription.inputs,
    PrimitiveDescription.stats] at hm ⊢
  simp only [marshalJSON.eq_def] at hm
  cases hdest : destSlot dest with
  | error e => rw [hdest] at hm; exact absurd hm (by simp)
  | ok destF =>
    rw [hdest] at hm
    cases hemp : inputs.isEmpty with
    | true =>
      rw [hemp] at hm
      simp only [if_true, Except.ok.injEq] at hm
      refine ⟨destF, [], rfl, ?_, fun _ => rfl, fun hne => ?_⟩
      · rw [← hm]
        simp [statsFields]
      · exact absurd (List.isEmpty_iff.mp hemp) hne
    | false =>
      rw [hemp] at hm
      simp only [Bool.false_eq_true, if_false] at hm
      cases hmi : marshalInputs inputs with
      | error e => rw [hmi] at hm; exact absurd hm (by simp)
      | ok vs =>
        rw [hmi] at hm
        simp only [Except.ok.injEq] at hm
        refine ⟨destF, [("Inputs", JSONValue.arr vs)], rfl, ?_, ?_, ?_⟩
        · rw [← hm]
          simp [statsFields]
        · intro hnil
          rw [hnil] at hemp
          simp at hemp
        · exact fun _ => ⟨vs, rfl, rfl⟩

/-- C1: the custom serializer emits the fields of a `PlanDescription` in
the fixed order InputName, OperatorType, Variant, Keyspace,
TargetDestination, TargetTabletType, the three stats fields, the
extension fields, Inputs; OperatorType always, InputName and Variant iff
non-empty, Keyspace and TargetDestination iff present, TargetTabletType
iff not `UNKNOWN`, and Inputs iff the child list is non-empty (the
emission conditions are about the serializer's own field slots; the
extension slot is covered by `addMap`). -/
theorem marshal_field_order (pd : PrimitiveDescription)
    (fields : List (String × JSONValue))
    (hm : marshalJSON pd = .ok fields) :
    ∃ destF inputsF,
      fields =
        (if pd.inputName = "" then []
          else [("InputName", JSONValue.str pd.inputName)])
        ++ [("OperatorType", JSONValue.str pd.operatorType)]
        ++ (if pd.variant = "" then []
          else [("Variant", JSONValue.str pd.variant)])
        ++ (match pd.keyspace with
            | none => []
            | some k => [("Keyspace", encodeKeyspace k)])
        ++ destF
        ++ (if pd.targetTabletType = TabletType.UNKNOWN then []
          else [("TargetTabletType", JSONValue.str pd.targetTabletType.name)])
        ++ (if pd.stats.isEmpty then [] else statsFields pd.stats)
        ++ addMap pd.other
        ++ inputsF ∧
      (pd.targetDestination = none → destF = []) ∧
      (∀ d, pd.targetDestination = some d →
        destF = [("TargetDestination", JSONValue.str (d.str.drop 11))]) ∧
      (pd.inputs = [] → inputsF = []) ∧
      (pd.inputs ≠ [] →
        ∃ vs, marshalInputs pd.inputs = .ok vs ∧
          inputsF = [("Inputs", JSONValue.arr vs)]) := by
  obtain ⟨destF, inputsF, hdest, hfields, hnil, hne⟩ :=
    marshalJSON_ok_decomp pd fields hm
  refine ⟨destF, inputsF, hfields, ?_, ?_, hnil, hne⟩
  · intro hnone
    rw [hnone] at hdest
    simp only [destSlot, Except.ok.injEq] at hdest
    exact hdest.symm
  · intro d hd
    rw [hd] at hdest
    simp only [destSlot] at hdest
    by_cases h11 : 11 ≤ d.str.length
    · rw [if_pos h11] at hdest
      simp only [Except.ok.injEq] at hdest
      exact hdest.symm
    · rw [if_neg h11] at hdest
      exact absurd hdest (by simp)

/-- A fully populated description with one child, for the witness below. -/
def pdC1 : PrimitiveDescription :=
  .mk "Route" "Scatter" (some ⟨"ks", true⟩) (some ⟨"DestinationAllShards()"⟩)
    .PRIMARY [("Extra", .vStr "x")] "SubQuery"
    [.mk "Limit" "" none none .UNKNOWN [] "" [] []] [1, 2]

/-- The fields `marshalJSON` emits for `pdC1`. -/
def fieldsC1 : List (String × JSONValue) :=
  [("InputName", .str "SubQuery"),
   ("OperatorType", .str "Route"),
   ("Variant", .str "Scatter"),
   ("Keyspace", .obj [("Name", .str "ks"), ("Sharded", .bool true)]),
   ("TargetDestination", .str "AllShards()"),
   ("TargetTabletType", .str "PRIMARY"),
   ("NoOfCalls", .int 2),
   ("AvgNumberOfRows", .num (average [1, 2])),
   ("MedianNumberOfRows", .num (median [1, 2])),
   ("Extra", .str "x"),
   ("Inputs", .arr [.obj [("OperatorType", .str "Limit")]])]

/-- Witness for `marshal_field_order` at `pdC1`. -/
theorem marshal_field_order_witness :
    ∃ destF inputsF,
      fieldsC1 =
        (if pdC1.inputName = "" then []
          else [("InputName", JSONValue.str pdC1.inputName)])
        ++ [("OperatorType", JSONValue.str pdC1.operatorType)]
        ++ (if pdC1.variant = "" then []
          else [("Variant", JSONValue.str pdC1.variant)])
        ++ (match pdC1.keyspace with
            | none => []
            | some k => [("Keyspace", encodeKeyspace k)])
        ++ destF
        ++ (if pdC1.targetTabletType = TabletType.UNKNOWN then []
          else [("TargetTabletType", JSONValue.str pdC1.targetTabletType.name)])
        ++ (if pdC1.stats.isEmpty then [] else statsFields pdC1.stats)
        ++ addMap pdC1.other
        ++ inputsF ∧
      (pdC1.targetDestination = none → destF = []) ∧
      (∀ d, pdC1.targetDestination = some d →
        destF = [("TargetDestination", JSONValue.str (d.str.drop 11))]) ∧
      (pdC1.inputs = [] → inputsF = []) ∧
      (pdC1.inputs ≠ [] →
        ∃ vs, marshalInputs pdC1.inputs = .ok vs ∧
          inputsF = [("Inputs", JSONValue.arr vs)]) :=
  marshal_field_order pdC1 fieldsC1 (by rfl)

set_option maxHeartbeats 1000000 in
/-- C10: serializing a description whose `TargetDestination` is present
slices its textual form from byte 11, so marshalling is total only when
that form has at least 11 characters; on a shorter form the call does not
take the `return nil, err` path (`MarshalFail.encodingError`) but fails
with the out-of-range panic (`MarshalFail.panicked`). -/
theorem short_destination_panics (pd : PrimitiveDescription) (d : Destination)
    (hd : pd.targetDestination = some d) (hshort : d.str.length < 11) :
    marshalJSON pd = .error .panicked ∧
    marshalJSON pd ≠ .error .encodingError := by
  obtain ⟨op, var, ks, dest, tt, other, iname, inputs, stats⟩ := pd
  simp only [PrimitiveDescription.targetDestination] at hd
  subst hd
  have hds : destSlot (some d) = .error .panicked := by
    simp [destSlot, Nat.not_le.mpr hshort]
  rw [marshalJSON.eq_def]
  simp [hds]

/-- Witness for `short_destination_panics`: a destination whose textual
form `"foo"` is shorter than the 11-byte prefix. -/
theorem short_destination_panics_witness :
    marshalJSON (.mk "Send" "" none (some ⟨"foo"⟩) .UNKNOWN [] "" [] []) =
      .error .panicked ∧
    marshalJSON (.mk "Send" "" none (some ⟨"foo"⟩) .UNKNOWN [] "" [] []) ≠
      .error .encodingError :=
  short_destination_panics
    (.mk "Send" "" none (some ⟨"foo"⟩) .UNKNOWN [] "" [] []) ⟨"foo"⟩
    rfl (by decide)

/-- C6: when `TargetDestination` is present and marshalling succeeds, the
emitted `TargetDestination` value is the destination's canonical textual
form with its first 11 characters (the `Destination` naming-convention
prefix) removed. -/
theorem target_destination_trimmed (pd : PrimitiveDescription)
    (d : Destination) (fields : List (String × JSONValue))
    (hd : pd.targetDestination = some d)
    (hm : marshalJSON pd = .ok fields) :
    ("TargetDestination", JSONValue.str (d.str.drop 11)) ∈ fields := by
  obtain ⟨destF, inputsF, hdest, hfields, _, _⟩ :=
    marshalJSON_ok_decomp pd fields hm
  rw [hd] at hdest
  simp only [destSlot] at hdest
  by_cases h11 : 11 ≤ d.str.length
  · rw [if_pos h11] at hdest
    simp only [Except.ok.injEq] at hdest
    rw [hfields, ← hdest]
    simp
  · rw [if_neg h11] at hdest
    exact absurd hdest (by simp)

/-- Witness for `target_destination_trimmed`:
`"DestinationShard(-80)"` is emitted as `"Shard(-80)"`. -/
theorem target_destination_trimmed_witness :
    ("TargetDestination", JSONValue.str
        ((Destination.mk "DestinationShard(-80)").str.drop 11)) ∈
      [("OperatorType", JSONValue.str "Send"),
       ("TargetDestination", JSONValue.str "Shard(-80)")] :=
  target_destination_trimmed
    (.mk "Send" "" none (some ⟨"DestinationShard(-80)"⟩) .UNKNOWN [] "" [] [])
    ⟨"DestinationShard(-80)"⟩ _ rfl (by rfl)

/-- C3: the serialized output carries the three derived stats fields
`NoOfCalls` (sample count), `AvgNumberOfRows` (mean) and
`MedianNumberOfRows` (median) together exactly when the stats sequence is
non-empty, and when it is empty none of the three names occurs anywhere
the serializer itself writes (`pre`/`post` below); the extension-map slot
sits between them and is governed by `addMap` (C2), so operator-supplied
extension keys are carved out. -/
theorem stats_fields_together (pd : PrimitiveDescription)
    (fields : List (String × JSONValue))
    (hm : marshalJSON pd = .ok fields) :
    ∃ pre post,
      fields = pre ++ (if pd.stats = [] then [] else statsFields pd.stats)
        ++ addMap pd.other ++ post ∧
      (∀ n, n ∈ (["NoOfCalls", "AvgNumberOfRows", "MedianNumberOfRows"]
          : List String) →
        n ∉ pre.map Prod.fst ∧ n ∉ post.map Prod.fst) := by
  obtain ⟨destF, inputsF, hdest, hfields, hnil, hne⟩ :=
    marshalJSON_ok_decomp pd fields hm
  have hdestkeys : ∀ x ∈ destF.map Prod.fst, x = "TargetDestination" := by
    cases hd : pd.targetDestination with
    | none =>
      rw [hd] at hdest
      simp only [destSlot, Except.ok.injEq] at hdest
      subst hdest
      simp
    | some d =>
      rw [hd] at hdest
      simp only [destSlot] at hdest
      by_cases h11 : 11 ≤ d.str.length
      · rw [if_pos h11] at hdest
        simp only [Except.ok.injEq] at hdest
        subst hdest
        simp
      · rw [if_neg h11] at hdest
        exact absurd hdest (by simp)
  have hinkeys : ∀ x ∈ inputsF.map Prod.fst, x = "Inputs" := by
    by_cases hin : pd.inputs = []
    · rw [hnil hin]
      simp
    · obtain ⟨vs, _, hF⟩ := hne hin
      subst hF
      simp
  refine ⟨(if pd.inputName = "" then []
      else [("InputName", JSONValue.str pd.inputName)])
    ++ [("OperatorType", JSONValue.str pd.operatorType)]
    ++ (if pd.variant = "" then []
      else [("Variant", JSONValue.str pd.variant)])
    ++ (match pd.keyspace with
        | none => []
        | some k => [("Keyspace", encodeKeyspace k)])
    ++ destF
    ++ (if pd.targetTabletType = TabletType.UNKNOWN then []
      else [("TargetTabletType", JSONValue.str pd.targetTabletType.name)]),
    inputsF, ?_, ?_⟩
  · rw [hfields]
    have hempty : pd.stats.isEmpty = decide (pd.stats = []) := by
      cases pd.stats <;> simp
    rw [hempty]
    by_cases hs : pd.stats = [] <;> simp [hs]
  · intro n hn
    constructor
    · intro hmem
      simp only [List.map_append, List.mem_append] at hmem
      have hknown : n = "InputName" ∨ n = "OperatorType" ∨ n = "Variant" ∨
          n = "Keyspace" ∨ n = "TargetDestination" ∨
          n = "TargetTabletType" := by
        rcases hmem with ((((h1 | h2) | h3) | h4) | h5) | h6
        · left
          by_cases hi : pd.inputName = ""
          · rw [if_pos hi] at h1
            simp at h1
          · rw [if_neg hi] at h1
            simpa using h1
        · right
          left
          simpa using h2
        · right; right; left
          by_cases hv : pd.variant = ""
          · rw [if_pos hv] at h3
            simp at h3
          · rw [if_neg hv] at h3
            simpa using h3
        · right; right; right; left
          rcases hk : pd.keyspace with _ | k <;> rw [hk] at h4
          · simp at h4
          · simpa using h4
        · right; right; right; right; left
          exact hdestkeys n h5
        · right; right; right; right; right
          by_cases ht : pd.targetTabletType = TabletType.UNKNOWN
          · rw [if_pos ht] at h6
            simp at h6
          · rw [if_neg ht] at h6
            simpa using h6
      fin_cases hn <;> rcases hknown with h | h | h | h | h | h <;>
        exact absurd h (by decide)
    · intro hmem
      have hx := hinkeys n hmem
      fin_cases hn <;> exact absurd hx (by decide)

/-- Description with stats `[1,1,1]`, for the witness below. -/
def pdC3 : PrimitiveDescription :=
  .mk "Route" "" none none .UNKNOWN [] "" [] [1, 1, 1]

/-- The fields `marshalJSON` emits for `pdC3`: the three stats fields
together, `NoOfCalls = 3`, mean `1`, median `1`. -/
def fieldsC3 : List (String × JSONValue) :=
  [("OperatorType", .str "Route"),
   ("NoOfCalls", .int 3),
   ("AvgNumberOfRows", .num (average [1, 1, 1])),
   ("MedianNumberOfRows", .num (median [1, 1, 1]))]

/-- Witness for `stats_fields_together` at `pdC3`. -/
theorem stats_fields_together_witness :
    ∃ pre post,
      fieldsC3 = pre ++ (if pdC3.stats = [] then [] else statsFields pdC3.stats)
        ++ addMap pdC3.other ++ post ∧
      (∀ n, n ∈ (["NoOfCalls", "AvgNumberOfRows", "MedianNumberOfRows"]
          : List String) →
        n ∉ pre.map Prod.fst ∧ n ∉ post.map Prod.fst) :=
  stats_fields_together pdC3 fieldsC3 (by rfl)

@[simp]
theorem PrimitiveDescription.inputs_setInputs (pd : PrimitiveDescription)
    (l : List PrimitiveDescription) : (pd.setInputs l).inputs = l := by
  cases pd
  rfl

@[simp]
theorem PrimitiveDescription.other_setInputs (pd : PrimitiveDescription)
    (l : List PrimitiveDescription) : (pd.setInputs l).other = pd.other := by
  cases pd
  rfl

@[simp]
theorem PrimitiveDescription.inputName_setInputName
    (pd : PrimitiveDescription) (n : String) :
    (pd.setInputName n).inputName = n := by
  cases pd
  rfl

@[simp]
theorem PrimitiveDescription.other_setInputName
    (pd : PrimitiveDescription) (n : String) :
    (pd.setInputName n).other = pd.other := by
  cases pd
  rfl

@[simp]
theorem PrimitiveDescription.other_setOther (pd : PrimitiveDescription)
    (o : List (String × GoValue)) : (pd.setOther o).other = o := by
  cases pd
  rfl

@[simp]
theorem PrimitiveDescription.inputName_setOther (pd : PrimitiveDescription)
    (o : List (String × GoValue)) : (pd.setOther o).inputName = pd.inputName := by
  cases pd
  rfl

set_option maxHeartbeats 2000000 in
/-- C7: building a node with zero children yields an explicit empty
`inputs` sequence (line 247 resets it even if `description()` pre-filled
it), and serializing such a description emits no `Inputs` field: the
serialized output is the serializer's own head fields (none of which is
named `Inputs`) followed by the extension-map fields. -/
theorem no_children_inputs (d : PrimitiveDescription)
    (infos : Option (List (List (String × GoValue))))
    (stats : Option (Primitive → List Int)) (res : PrimitiveDescription)
    (hb : primitiveToPlanDescription (.mk d [] infos) stats = some res) :
    res.inputs = [] ∧
    ∀ fields, marshalJSON res = .ok fields →
      ∃ pre, fields = pre ++ addMap res.other ∧
        "Inputs" ∉ pre.map Prod.fst := by
  have hinputs : res.inputs = [] := by
    rw [primitiveToPlanDescription.eq_def] at hb
    simp only [buildChildren.eq_def] at hb
    simp at hb
    rw [← hb]
    simp
  refine ⟨hinputs, fun fields hm => ?_⟩
  obtain ⟨destF, inputsF, hdest, hfields, hnil, _⟩ :=
    marshalJSON_ok_decomp res fields hm
  have hdestkeys : ∀ x ∈ destF.map Prod.fst, x = "TargetDestination" := by
    cases hd : res.targetDestination with
    | none =>
      rw [hd] at hdest
      simp only [destSlot, Except.ok.injEq] at hdest
      subst hdest
      simp
    | some dd =>
      rw [hd] at hdest
      simp only [destSlot] at hdest
      by_cases h11 : 11 ≤ dd.str.length
      · rw [if_pos h11] at hdest
        simp only [Except.ok.injEq] at hdest
        subst hdest
        simp
      · rw [if_neg h11] at hdest
        exact absurd hdest (by simp)
  refine ⟨(if res.inputName = "" then []
      else [("InputName", JSONValue.str res.inputName)])
    ++ [("OperatorType", JSONValue.str res.operatorType)]
    ++ (if res.variant = "" then []
      else [("Variant", JSONValue.str res.variant)])
    ++ (match res.keyspace with
        | none => []
        | some k => [("Keyspace", encodeKeyspace k)])
    ++ destF
    ++ (if res.targetTabletType = TabletType.UNKNOWN then []
      else [("TargetTabletType", JSONValue.str res.targetTabletType.name)])
    ++ (if res.stats.isEmpty then [] else statsFields res.stats), ?_, ?_⟩
  · rw [hfields, hnil hinputs]
    simp
  · intro hmem
    simp only [List.map_append, List.mem_append] at hmem
    rcases hmem with (((((h1 | h2) | h3) | h4) | h5) | h6) | h7
    · by_cases hi : res.inputName = ""
      · rw [if_pos hi] at h1
        simp at h1
      · rw [if_neg hi] at h1
        simp at h1
    · simp at h2
    · by_cases hv : res.variant = ""
      · rw [if_pos hv] at h3
        simp at h3
      · rw [if_neg hv] at h3
        simp at h3
    · rcases hk : res.keyspace with _ | k <;> rw [hk] at h4
      · simp at h4
      · simp at h4
    · have := hdestkeys _ h5
      simp at this
    · by_cases ht : res.targetTabletType = TabletType.UNKNOWN
      · rw [if_pos ht] at h6
        simp at h6
      · rw [if_neg ht] at h6
        simp at h6
    · by_cases hs : res.stats.isEmpty
      · rw [if_pos hs] at h7
        simp at h7
      · rw [if_neg hs] at h7
        simp [statsFields] at h7

/-- A childless description, for the witness below. -/
def resC7 : PrimitiveDescription :=
  .mk "Limit" "" none none .UNKNOWN [("Extra", .vStr "x")] "" [] []

/-- The fields `marshalJSON` emits for `resC7`. -/
def fieldsC7 : List (String × JSONValue) :=
  [("OperatorType", .str "Limit"), ("Extra", .str "x")]

/-- Witness for `no_children_inputs`: a leaf primitive. -/
theorem no_children_inputs_witness :
    resC7.inputs = [] ∧
    (∃ pre, fieldsC7 = pre ++ addMap resC7.other ∧
      "Inputs" ∉ pre.map Prod.fst) :=
  ⟨(no_children_inputs resC7 none none resC7 (by rfl)).1,
   (no_children_inputs resC7 none none resC7 (by rfl)).2 fieldsC7 (by rfl)⟩

/-- On a map with distinct keys, a binding determines the lookup. -/
theorem mapLookup_eq_some_of_mem (m : List (String × GoValue)) (k : String)
    (v : GoValue) (hnd : (m.map Prod.fst).Nodup) (hmem : (k, v) ∈ m) :
    mapLookup m k = some v := by
  induction m with
  | nil => simp at hmem
  | cons a m ih =>
    obtain ⟨k0, v0⟩ := a
    simp only [List.map_cons, List.nodup_cons] at hnd
    rcases List.mem_cons.mp hmem with heq | htail
    · injection heq with h1 h2
      subst h1
      subst h2
      simp [mapLookup]
    · have hk : k0 ≠ k := by
        intro h
        subst h
        exact hnd.1 (List.mem_map.mpr ⟨(k0, v), htail, rfl⟩)
      rw [mapLookup, List.find?_cons_of_neg _ (by simp [hk])]
      exact ih hnd.2 htail

/-- The keys of `addMap`'s output are a sublist of the sorted key list it
walks. -/
theorem addMap_keys_sublist (m : List (String × GoValue))
    (l : List String) :
    ((l.filterMap (fun k => (mapLookup m k).map
      (fun v => (k, encodeGoValue v)))).map Prod.fst).Sublist l := by
  induction l with
  | nil => simp
  | cons a l ih =>
    cases hl : mapLookup m a with
    | none =>
      simp only [List.filterMap_cons, hl, Option.map_none]
      exact ih.cons a
    | some w =>
      simp only [List.filterMap_cons, hl, Option.map_some, List.map_cons]
      exact ih.cons₂ a

/-- C2: `addMap` emits the extension keys in lexicographic order
(`strLe` is character-wise lexicographic comparison), a key is skipped
exactly when its value is the empty string, null, the integer zero or
boolean false, every other binding is emitted with its encoded value, and
on a concrete map an empty sequence, a negative number and a non-empty
string are all emitted while the four default values all vanish. -/
theorem addMap_spec (input : List (String × GoValue))
    (hnd : (input.map Prod.fst).Nodup) :
    ((addMap input).map Prod.fst).Sorted strLe ∧
    (∀ v : GoValue, skipValue v = true ↔
      (v = .vStr "" ∨ v = .vNull ∨ v = .vInt 0 ∨ v = .vBool false)) ∧
    (∀ k v, (k, v) ∈ input → skipValue v = false →
      (k, encodeGoValue v) ∈ addMap input) ∧
    (∀ k v, (k, v) ∈ input → skipValue v = true →
      ∀ j, (k, j) ∉ addMap input) ∧
    addMap [("b", .vInt 1), ("a", .vStrList []), ("d", .vInt 0),
            ("e", .vInt (-1)), ("f", .vNull), ("g", .vBool false),
            ("h", .vStr ""), ("c", .vStr "x")] =
      [("a", .arr []), ("b", .int 1), ("c", .str "x"),
       ("e", .int (-1))] := by
  refine ⟨?_, ?_, ?_, ?_, ?_⟩
  · exact ((List.sorted_insertionSort strLe _).sublist
      (addMap_keys_sublist input _))
  · intro v
    simp only [skipValue, Bool.or_eq_true, beq_iff_eq]
    tauto
  · intro k v hmem hskip
    have hkmem : k ∈ (input.filter
        (fun kv => !skipValue kv.2)).map Prod.fst :=
      List.mem_map.mpr ⟨(k, v), List.mem_filter.mpr ⟨hmem, by simp [hskip]⟩,
        rfl⟩
    have hksorted : k ∈ sortStrings
        ((input.filter (fun kv => !skipValue kv.2)).map Prod.fst) :=
      (List.mem_insertionSort strLe).mpr hkmem
    exact List.mem_filterMap.mpr ⟨k, hksorted,
      by rw [mapLookup_eq_some_of_mem input k v hnd hmem]; rfl⟩
  · intro k v hmem hskip j hj
    obtain ⟨a, ha, hfa⟩ := List.mem_filterMap.mp hj
    cases hl : mapLookup input a with
    | none =>
      rw [hl] at hfa
      simp at hfa
    | some w =>
      rw [hl] at hfa
      have hfa2 : (a, encodeGoValue w) = (k, j) := by
        simpa using hfa
      have hak : a = k := congrArg Prod.fst hfa2
      have hmemf : a ∈ (input.filter
          (fun kv => !skipValue kv.2)).map Prod.fst :=
        (List.mem_insertionSort strLe).mp ha
      obtain ⟨⟨k2, w2⟩, hmem2, hfst⟩ := List.mem_map.mp hmemf
      simp only at hfst
      obtain ⟨hmem3, hskip3⟩ := List.mem_filter.mp hmem2
      have hk2 : k2 = k := hfst.trans hak
      have hlk : mapLookup input k = some v :=
        mapLookup_eq_some_of_mem input k v hnd hmem
      have hw2 : mapLookup input k = some w2 :=
        mapLookup_eq_some_of_mem input k w2 hnd (hk2 ▸ hmem3)
      rw [hlk] at hw2
      injection hw2 with hvw
      rw [← hvw] at hskip3
      rw [hskip] at hskip3
      simp at hskip3
  · rfl

/-- A two-key extension map with distinct keys, for the witness below. -/
def inputC2 : List (String × GoValue) :=
  [("b", .vInt 1), ("a", .vStr "x")]

/-- Witness for `addMap_spec` at `inputC2`. -/
theorem addMap_spec_witness :
    ((addMap inputC2).map Prod.fst).Sorted strLe ∧
    (∀ v : GoValue, skipValue v = true ↔
      (v = .vStr "" ∨ v = .vNull ∨ v = .vInt 0 ∨ v = .vBool false)) ∧
    (∀ k v, (k, v) ∈ inputC2 → skipValue v = false →
      (k, encodeGoValue v) ∈ addMap inputC2) ∧
    (∀ k v, (k, v) ∈ inputC2 → skipValue v = true →
      ∀ j, (k, j) ∉ addMap inputC2) ∧
    addMap [("b", .vInt 1), ("a", .vStrList []), ("d", .vInt 0),
            ("e", .vInt (-1)), ("f", .vNull), ("g", .vBool false),
            ("h", .vStr ""), ("c", .vStr "x")] =
      [("a", .arr []), ("b", .int 1), ("c", .str "x"),
       ("e", .int (-1))] :=
  addMap_spec inputC2 (by decide)

theorem mapLookup_cons_self (k : String) (v : GoValue)
    (m : List (String × GoValue)) : mapLookup ((k, v) :: m) k = some v := by
  simp [mapLookup]

theorem mapLookup_cons_ne (k0 : String) (v0 : GoValue)
    (m : List (String × GoValue)) (k : String) (h : k0 ≠ k) :
    mapLookup ((k0, v0) :: m) k = mapLookup m k := by
  rw [mapLookup, List.find?_cons_of_neg _ (by simp [h]), mapLookup]

theorem lookup_map_overwrite (m : List (String × GoValue)) (k : String)
    (v : GoValue) :
    m.any (fun kv => kv.1 = k) = true →
    mapLookup (m.map (fun kv => if kv.1 = k then (k, v) else kv)) k =
      some v := by
  induction m with
  | nil => intro h; simp at h
  | cons a m ih =>
    intro h
    obtain ⟨k0, v0⟩ := a
    by_cases hk : k0 = k
    · subst hk
      simp only [List.map_cons, if_pos rfl]
      exact mapLookup_cons_self k0 v _
    · simp only [List.map_cons, if_neg hk]
      rw [mapLookup_cons_ne _ _ _ _ hk]
      apply ih
      simp only [List.any_cons, Bool.or_eq_true] at h
      rcases h with h | h
      · exact absurd (by simpa using h) hk
      · exact h

theorem lookup_append_single (m : List (String × GoValue)) (k : String)
    (v : GoValue) :
    m.any (fun kv => kv.1 = k) = false →
    mapLookup (m ++ [(k, v)]) k = some v := by
  induction m with
  | nil => intro _; exact mapLookup_cons_self k v []
  | cons a m ih =>
    intro h
    obtain ⟨k0, v0⟩ := a
    simp only [List.any_cons, Bool.or_eq_false_iff] at h
    have h1 : k0 ≠ k := by simpa using h.1
    rw [List.cons_append, mapLookup_cons_ne _ _ _ _ h1]
    exact ih h.2

/-- After `m[k] = v` the lookup of `k` is `v`. -/
theorem mapLookup_goInsert_self (m : List (String × GoValue)) (k : String)
    (v : GoValue) : mapLookup (goInsert m k v) k = some v := by
  cases hany : m.any (fun kv => kv.1 = k) with
  | true =>
    unfold goInsert
    rw [if_pos hany]
    exact lookup_map_overwrite m k v hany
  | false =>
    unfold goInsert
    rw [if_neg (by simp [hany])]
    exact lookup_append_single m k v hany

/-- `m[k] = v` leaves the lookup of every other key unchanged. -/
theorem mapLookup_goInsert_ne (m : List (String × GoValue)) (k : String)
    (v : GoValue) (k2 : String) (h : k2 ≠ k) :
    mapLookup (goInsert m k v) k2 = mapLookup m k2 := by
  cases hany : m.any (fun kv => kv.1 = k) with
  | true =>
    unfold goInsert
    rw [if_pos hany]
    clear hany
    induction m with
    | nil => rfl
    | cons a m ih =>
      obtain ⟨k0, v0⟩ := a
      by_cases hk : k0 = k
      · subst hk
        simp only [List.map_cons]
        rw [if_pos trivial]
        rw [mapLookup_cons_ne _ _ _ _ (Ne.symm h),
          mapLookup_cons_ne _ _ _ _ (Ne.symm h)]
        exact ih
      · simp only [List.map_cons, if_neg hk]
        by_cases hk2 : k0 = k2
        · subst hk2
          rw [mapLookup_cons_self, mapLookup_cons_self]
        · rw [mapLookup_cons_ne _ _ _ _ hk2, mapLookup_cons_ne _ _ _ _ hk2]
          exact ih
  | false =>
    unfold goInsert
    rw [if_neg (by simp [hany])]
    clear hany
    induction m with
    | nil =>
      rw [List.nil_append, mapLookup_cons_ne _ _ _ _ (Ne.symm h)]
    | cons a m ih =>
      obtain ⟨k0, v0⟩ := a
      by_cases hk2 : k0 = k2
      · subst hk2
        rw [List.cons_append, mapLookup_cons_self, mapLookup_cons_self]
      · rw [List.cons_append, mapLookup_cons_ne _ _ _ _ hk2,
          mapLookup_cons_ne _ _ _ _ hk2]
        exact ih

theorem mapLookup_eq_none_of_not_mem (m : List (String × GoValue))
    (k : String) (h : k ∉ m.map Prod.fst) : mapLookup m k = none := by
  induction m with
  | nil => rfl
  | cons a m ih =>
    obtain ⟨k0, v0⟩ := a
    simp only [List.map_cons, List.mem_cons, not_or] at h
    rw [mapLookup_cons_ne _ _ _ _ (fun he => h.1 he.symm)]
    exact ih h.2

/-- What one pass of the metadata loop does to a child description: the
reserved key sets `InputName` (and is not inserted into the extension
map), every other key overwrites the extension map. -/
theorem applyInfo_spec : ∀ (m : List (String × GoValue))
    (pd res : PrimitiveDescription),
    applyInfo pd m = some res → (m.map Prod.fst).Nodup →
    (∀ s, mapLookup m inputName = some (.vStr s) → res.inputName = s) ∧
    (mapLookup m inputName = none → res.inputName = pd.inputName) ∧
    (mapLookup res.other inputName = mapLookup pd.other inputName) ∧
    (∀ k, k ≠ inputName →
      mapLookup res.other k =
        match mapLookup m k with
        | some v => some v
        | none => mapLookup pd.other k) := by
  intro m
  induction m with
  | nil =>
    intro pd res h _
    injection h with h
    subst h
    refine ⟨?_, fun _ => rfl, rfl, fun k _ => rfl⟩
    intro s hs
    simp [mapLookup] at hs
  | cons a rest ih =>
    intro pd res h hnd
    obtain ⟨k0, v0⟩ := a
    simp only [List.map_cons, List.nodup_cons] at hnd
    obtain ⟨hk0nmem, hndrest⟩ := hnd
    simp only [applyInfo] at h
    by_cases hk : k0 = inputName
    · rw [if_pos hk] at h
      subst hk
      cases v0 with
      | vStr s0 =>
        obtain ⟨c1, c2, c3, c4⟩ := ih (pd.setInputName s0) res h hndrest
        have hrest : mapLookup rest inputName = none :=
          mapLookup_eq_none_of_not_mem rest inputName hk0nmem
        refine ⟨?_, ?_, ?_, ?_⟩
        · intro s hs
          rw [mapLookup_cons_self] at hs
          injection hs with hs
          injection hs with hs
          rw [c2 hrest]
          rw [PrimitiveDescription.inputName_setInputName]
          exact hs
        · intro hs
          rw [mapLookup_cons_self] at hs
          exact absurd hs (by simp)
        · rw [c3, PrimitiveDescription.other_setInputName]
        · intro k hkne
          rw [mapLookup_cons_ne _ _ _ _ (Ne.symm hkne)]
          have h4 := c4 k hkne
          rw [PrimitiveDescription.other_setInputName] at h4
          exact h4
      | vNull => simp at h
      | vInt n => simp at h
      | vBool b => simp at h
      | vStrList ss => simp at h
    · rw [if_neg hk] at h
      obtain ⟨c1, c2, c3, c4⟩ := ih _ res h hndrest
      refine ⟨?_, ?_, ?_, ?_⟩
      · intro s hs
        rw [mapLookup_cons_ne _ _ _ _ hk] at hs
        exact c1 s hs
      · intro hs
        rw [mapLookup_cons_ne _ _ _ _ hk] at hs
        rw [c2 hs, PrimitiveDescription.inputName_setOther]
      · rw [c3, PrimitiveDescription.other_setOther]
        exact mapLookup_goInsert_ne pd.other k0 v0 inputName (Ne.symm hk)
      · intro k hkne
        by_cases hkk0 : k = k0
        · subst hkk0
          rw [mapLookup_cons_self]
          have h4 := c4 k hkne
          rw [PrimitiveDescription.other_setOther] at h4
          have hrest : mapLookup rest k = none :=
            mapLookup_eq_none_of_not_mem rest k hk0nmem
          rw [hrest] at h4
          exact h4.trans (mapLookup_goInsert_self pd.other k v0)
        · rw [mapLookup_cons_ne _ _ _ _ (fun he => hkk0 he.symm)]
          have h4 := c4 k hkne
          rw [PrimitiveDescription.other_setOther,
            mapLookup_goInsert_ne pd.other k0 v0 k hkk0] at h4
          exact h4

set_option maxHeartbeats 2000000 in
/-- The child at index `i` of a successful `buildChildren` run is the
recursively built description with its metadata entry applied. -/
theorem buildChildren_get (cs : List Primitive) :
    ∀ (il : List (List (String × GoValue)))
      (stats : Option (Primitive → List Int))
      (kids : List PrimitiveDescription) (i : Nat) (c : Primitive)
      (m : List (String × GoValue)),
    buildChildren cs (some il) stats = some kids →
    cs.get? i = some c → il.get? i = some m →
    ∃ pd0 pd1, primitiveToPlanDescription c stats = some pd0 ∧
      applyInfo pd0 m = some pd1 ∧ kids.get? i = some pd1 := by
  induction cs with
  | nil =>
    intro il stats kids i c m _ hc _
    simp at hc
  | cons c0 cs ih =>
    intro il stats kids i c m hb hc hm
    cases il with
    | nil =>
      rw [buildChildren.eq_def] at hb
      simp at hb
    | cons m0 il =>
      rw [buildChildren.eq_def] at hb
      simp only at hb
      split at hb
      · exact absurd hb (by simp)
      · rename_i pd0 h0
        split at hb
        · exact absurd hb (by simp)
        · rename_i pd1 h1
          split at hb
          · exact absurd hb (by simp)
          · rename_i rest h2
            injection hb with hb
            cases i with
            | zero =>
              injection hc with hc
              injection hm with hm
              subst hc
              subst hm
              exact ⟨pd0, pd1, h0, h1, by rw [← hb]; rfl⟩
            | succ i =>
              obtain ⟨q0, q1, g0, g1, g2⟩ :=
                ih il stats rest i c m h2 (by simpa using hc)
                  (by simpa using hm)
              exact ⟨q0, q1, g0, g1, by rw [← hb]; simpa using g2⟩

set_option maxHeartbeats 2000000 in
/-- C4: for every child the builder makes whose per-child metadata is
present, the value under the reserved `InputName` key becomes the child's
`inputName` and the merge adds no `InputName` key to the child's
extension map, while every other metadata key is merged into the child's
extension map, overwriting any same-named key the child's own
`description()` set. -/
theorem builder_metadata_merge (d : PrimitiveDescription)
    (children : List Primitive) (il : List (List (String × GoValue)))
    (stats : Option (Primitive → List Int)) (res : PrimitiveDescription)
    (hb : primitiveToPlanDescription (.mk d children (some il)) stats =
      some res)
    (i : Nat) (c : Primitive) (m : List (String × GoValue))
    (hc : children.get? i = some c) (hm : il.get? i = some m)
    (hnd : (m.map Prod.fst).Nodup) :
    ∃ pd0 pd1,
      primitiveToPlanDescription c stats = some pd0 ∧
      applyInfo pd0 m = some pd1 ∧
      pd1 ∈ res.inputs ∧
      (∀ s, mapLookup m inputName = some (.vStr s) → pd1.inputName = s) ∧
      (mapLookup pd1.other inputName = mapLookup pd0.other inputName) ∧
      (∀ k, k ≠ inputName →
        mapLookup pd1.other k =
          match mapLookup m k with
          | some v => some v
          | none => mapLookup pd0.other k) := by
  rw [primitiveToPlanDescription.eq_def] at hb
  simp only at hb
  cases hk : buildChildren children (some il) stats with
  | none => rw [hk] at hb; simp at hb
  | some kids =>
    rw [hk] at hb
    obtain ⟨pd0, pd1, h1, h2, h3⟩ :=
      buildChildren_get children il stats kids i c m hk hc hm
    obtain ⟨c1, _, c3, c4⟩ := applyInfo_spec m pd0 pd1 h2 hnd
    have hchne : children ≠ [] := by
      intro he
      rw [he] at hc
      simp at hc
    have hemp : ¬ children.isEmpty = true := by
      simpa [List.isEmpty_iff] using hchne
    refine ⟨pd0, pd1, h1, h2, ?_, c1, c3, c4⟩
    simp only at hb
    rw [if_neg hemp] at hb
    injection hb with hb
    rw [← hb]
    simp only [PrimitiveDescription.inputs_setInputs]
    exact List.mem_append_right _ (List.get?_mem h3)

/-- A leaf child primitive, for the witness below. -/
def childC4 : Primitive :=
  .mk (.mk "Limit" "" none none .UNKNOWN [] "" [] []) [] none

/-- The spec's example metadata `{role: "Left", X: "y"}`. -/
def mC4 : List (String × GoValue) :=
  [("InputName", .vStr "Left"), ("X", .vStr "y")]

/-- What building the two-node tree produces: the child carries
`inputName = "Left"` and extension map `{X: "y"}`. -/
def resC4 : PrimitiveDescription :=
  .mk "Join" "" none none .UNKNOWN [] ""
    [.mk "Limit" "" none none .UNKNOWN [("X", .vStr "y")] "Left" [] []] []

/-- Witness for `builder_metadata_merge` at the spec's example. -/
theorem builder_metadata_merge_witness :
    ∃ pd0 pd1,
      primitiveToPlanDescription childC4 none = some pd0 ∧
      applyInfo pd0 mC4 = some pd1 ∧
      pd1 ∈ resC4.inputs ∧
      (∀ s, mapLookup mC4 inputName = some (.vStr s) → pd1.inputName = s) ∧
      (mapLookup pd1.other inputName = mapLookup pd0.other inputName) ∧
      (∀ k, k ≠ inputName →
        mapLookup pd1.other k =
          match mapLookup mC4 k with
          | some v => some v
          | none => mapLookup pd0.other k) :=
  builder_metadata_merge (.mk "Join" "" none none .UNKNOWN [] "" [] [])
    [childC4] [mC4] none resC4 (by rfl) 0 childC4 mC4 rfl rfl (by decide)

theorem modifyNode_congr (f f2 : GNode → GNode) (h : ∀ n, f n = f2 n) :
    ∀ (i : Nat) (l : List GNode), modifyNode f i l = modifyNode f2 i l := by
  intro i l
  induction l generalizing i with
  | nil => cases i <;> rfl
  | cons a l ih =>
    cases i with
    | zero => simp [modifyNode, h a]
    | succ i => simp [modifyNode, ih i]

theorem modifyNode_id (i : Nat) (l : List GNode) :
    modifyNode (fun n => n) i l = l := by
  induction l generalizing i with
  | nil => cases i <;> rfl
  | cons a l ih =>
    cases i with
    | zero => rfl
    | succ i => simp [modifyNode, ih i]

theorem modifyNode_comp (f h : GNode → GNode) :
    ∀ (i : Nat) (l : List GNode),
    modifyNode f i (modifyNode h i l) = modifyNode (fun n => f (h n)) i l := by
  intro i l
  induction l generalizing i with
  | nil => cases i <;> rfl
  | cons a l ih =>
    cases i with
    | zero => rfl
    | succ i => simp [modifyNode, ih i]

theorem getD_modifyNode (f : GNode → GNode) (i : Nat) (l : List GNode)
    (d : GNode) (hi : i < l.length) :
    (modifyNode f i l).getD i d = f (l.getD i d) := by
  induction l generalizing i with
  | nil => simp at hi
  | cons a l ih =>
    cases i with
    | zero => rfl
    | succ i =>
      simp only [modifyNode]
      have hi2 : i < l.length := by simpa using hi
      simpa using ih i hi2

theorem foldl_addAttr (ss : List String) :
    ∀ (g : Graph) (id : Nat),
    (ss.foldl (fun g2 s => g2.addAttr id s) g).nodes =
      modifyNode (fun n => ⟨n.label, n.attrs ++ ss, n.tooltips⟩) id g.nodes ∧
    (ss.foldl (fun g2 s => g2.addAttr id s) g).edges = g.edges := by
  induction ss with
  | nil =>
    intro g id
    refine ⟨?_, rfl⟩
    simp only [List.foldl_nil]
    rw [modifyNode_congr _ (fun n => n) (fun n => by cases n; simp),
      modifyNode_id]
  | cons s ss ih =>
    intro g id
    obtain ⟨ihn, ihe⟩ := ih (g.addAttr id s) id
    refine ⟨?_, ihe⟩
    rw [List.foldl_cons, ihn]
    show modifyNode _ id
      (modifyNode (fun n => { n with attrs := n.attrs ++ [s] }) id g.nodes) = _
    rw [modifyNode_comp]
    exact modifyNode_congr _ _ (fun n => by cases n; simp) id g.nodes

theorem foldl_addEdge (ids : List Nat) :
    ∀ (g : Graph) (t : Nat),
    (ids.foldl (fun gg n => gg.addEdge t n) g).nodes = g.nodes := by
  induction ids with
  | nil => intro g t; rfl
  | cons i ids ih =>
    intro g t
    rw [List.foldl_cons, ih]
    rfl

/-- One extension-map entry appends `entryAttrs` to the node's visible
attributes and `entryTooltips` to its tooltips, and touches nothing
else. -/
theorem entryScan_nodes (g : Graph) (id : Nat) (k : String) (v : GoValue) :
    (entryScan g id k v).nodes =
      modifyNode (fun n => ⟨n.label, n.attrs ++ entryAttrs k v,
        n.tooltips ++ entryTooltips k v⟩) id g.nodes ∧
    (entryScan g id k v).edges = g.edges := by
  unfold entryScan entryAttrs entryTooltips
  by_cases hq : k = "Query"
  · rw [if_pos hq, if_pos hq, if_pos hq]
    refine ⟨?_, rfl⟩
    exact modifyNode_congr _ _ (fun n => by cases n; simp) id g.nodes
  · rw [if_neg hq, if_neg hq, if_neg hq]
    by_cases hf : k = "FieldQuery"
    · rw [if_pos hf, if_pos hf]
      refine ⟨?_, rfl⟩
      rw [modifyNode_congr _ (fun n => n) (fun n => by cases n; simp),
        modifyNode_id]
    · rw [if_neg hf, if_neg hf]
      cases v with
      | vStrList ss =>
        obtain ⟨hn, he⟩ := foldl_addAttr ss (g.addAttr id k) id
        refine ⟨?_, he⟩
        rw [hn]
        show modifyNode _ id
          (modifyNode (fun n => { n with attrs := n.attrs ++ [k] }) id
            g.nodes) = _
        rw [modifyNode_comp]
        exact modifyNode_congr _ _ (fun n => by cases n; simp) id g.nodes
      | vNull =>
        exact ⟨modifyNode_congr _ _ (fun n => by cases n; simp) id g.nodes,
          rfl⟩
      | vStr s =>
        exact ⟨modifyNode_congr _ _ (fun n => by cases n; simp) id g.nodes,
          rfl⟩
      | vInt n =>
        exact ⟨modifyNode_congr _ _ (fun n => by cases n; simp) id g.nodes,
          rfl⟩
      | vBool b =>
        exact ⟨modifyNode_congr _ _ (fun n => by cases n; simp) id g.nodes,
          rfl⟩

/-- The whole extension-map scan appends the concatenation of the
per-entry attributes and tooltips, in map order. -/
theorem scan_fold (entries : List (String × GoValue)) :
    ∀ (g : Graph) (id : Nat),
    ((entries.foldl (fun gg kv => entryScan gg id kv.1 kv.2) g).nodes =
      modifyNode (fun n => ⟨n.label,
        n.attrs ++ entries.flatMap (fun kv => entryAttrs kv.1 kv.2),
        n.tooltips ++ entries.flatMap (fun kv => entryTooltips kv.1 kv.2)⟩)
        id g.nodes) ∧
    ((entries.foldl (fun gg kv => entryScan gg id kv.1 kv.2) g).edges =
      g.edges) := by
  induction entries with
  | nil =>
    intro g id
    refine ⟨?_, rfl⟩
    simp only [List.foldl_nil]
    rw [modifyNode_congr _ (fun n => n) (fun n => by cases n; simp),
      modifyNode_id]
  | cons kv entries ih =>
    intro g id
    obtain ⟨hn1, he1⟩ := entryScan_nodes g id kv.1 kv.2
    obtain ⟨hn2, he2⟩ := ih (entryScan g id kv.1 kv.2) id
    refine ⟨?_, by rw [List.foldl_cons, he2, he1]⟩
    rw [List.foldl_cons, hn2, hn1, modifyNode_comp]
    exact modifyNode_congr _ _ (fun n => by cases n; simp) id g.nodes

set_option maxHeartbeats 2000000 in
/-- C8 (amended): for every description node exported to the graph, an
extension entry with key `Query` is attached only as a tooltip, an entry
with key `FieldQuery` produces neither a tooltip nor an attribute, a
string-sequence value is rendered as the key followed by one attribute
per element (the code adds `AddAttribute(k)` before the elements), and
every other entry is rendered as a single `key:value` attribute;
`entryAttrs`/`entryTooltips` state these per-entry rules and the node
carries exactly their concatenation.  The node's label is
`operatorType:variant`, or `operatorType` when the variant is empty. -/
theorem graph_export_scan (pd : PrimitiveDescription) (g : Graph) :
    ((addToGraph pd g).1.nodes.getD (addToGraph pd g).2 ⟨"", [], []⟩).attrs =
      pd.other.flatMap (fun kv => entryAttrs kv.1 kv.2) ∧
    ((addToGraph pd g).1.nodes.getD (addToGraph pd g).2
        ⟨"", [], []⟩).tooltips =
      pd.other.flatMap (fun kv => entryTooltips kv.1 kv.2) ∧
    ((addToGraph pd g).1.nodes.getD (addToGraph pd g).2 ⟨"", [], []⟩).label =
      (if pd.variant = "" then pd.operatorType
        else pd.operatorType ++ ":" ++ pd.variant) := by
  obtain ⟨op, var, ks, dest, tt, other, iname, inputs, stats⟩ := pd
  simp only [PrimitiveDescription.other, PrimitiveDescription.variant,
    PrimitiveDescription.operatorType]
  rw [addToGraph.eq_def]
  dsimp only
  obtain ⟨hscan, _⟩ := scan_fold other
    (((addInputs inputs g).1).addNode
      (if var = "" then op else op ++ ":" ++ var)).1
    (((addInputs inputs g).1).addNode
      (if var = "" then op else op ++ ":" ++ var)).2
  rw [foldl_addEdge, hscan]
  have hlen : (((addInputs inputs g).1).addNode
      (if var = "" then op else op ++ ":" ++ var)).2 <
      ((((addInputs inputs g).1).addNode
        (if var = "" then op else op ++ ":" ++ var)).1).nodes.length := by
    dsimp [Graph.addNode]
    simp
  rw [getD_modifyNode _ _ _ _ hlen]
  dsimp [Graph.addNode]
  rw [getD_append_self]
  simp

/-- A node whose extension map holds one string-sequence entry. -/
def pdC8 : PrimitiveDescription :=
  .mk "Op" "" none none .UNKNOWN [("K", .vStrList ["a", "b"])] "" [] []

/-- C8's claim as stated is false: the entry `K: ["a","b"]` is rendered
as three attributes — the key `"K"` first, then the two elements — not
as one attribute per element. -/
theorem graph_export_scan_counterexample :
    ((addToGraph pdC8 ⟨[], []⟩).1.nodes.getD (addToGraph pdC8 ⟨[], []⟩).2
        ⟨"", [], []⟩).attrs = ["K", "a", "b"] ∧
    ¬ ((addToGraph pdC8 ⟨[], []⟩).1.nodes.getD (addToGraph pdC8 ⟨[], []⟩).2
        ⟨"", [], []⟩).attrs = ["a", "b"] := by
  constructor
  · rfl
  · intro h
    rw [show ((addToGraph pdC8 ⟨[], []⟩).1.nodes.getD
        (addToGraph pdC8 ⟨[], []⟩).2 ⟨"", [], []⟩).attrs =
        ["K", "a", "b"] from rfl] at h
    exact absurd h (by decide)
